import Mathlib

/-!
Verification of the segmentation engine of the Primus construction-estimate
extraction jobs (src/jobs/extract_primus_specialized.py and
src/jobs/extract_primus_specialized_split.py).

The Python code is shallowly embedded: strings are Lean strings (lists of
characters), the regular expressions used by the code are hand-translated
into deterministic character-level matchers (each regex used by the code is
in fact deterministic: every quantified class is followed by a character
that cannot extend it, so greedy matching never backtracks), floats of the
geometric splitter are embedded as rationals, and exceptions are embedded
as Except values.
-/

namespace PrimusSpec

/-- Whitespace class: ASCII whitespace, the fragment of Python's str.strip
and of the regex class backslash-s that is relevant to these documents. -/
def isSpace (c : Char) : Bool :=
  c = ' ' || c = '\t' || c = '\n' || c = '\r' || c = '\x0b' || c = '\x0c'

/-- ASCII decimal digit, Python regex class backslash-d (ASCII fragment). -/
def isDigit (c : Char) : Bool := '0' ≤ c && c ≤ '9'

/-- Regex class [A-Z]. -/
def isUpper (c : Char) : Bool := 'A' ≤ c && c ≤ 'Z'

/-- Regex class [a-z]. -/
def isLower (c : Char) : Bool := 'a' ≤ c && c ≤ 'z'

/-- Regex class [a-zA-Z]. -/
def isAlpha (c : Char) : Bool := isUpper c || isLower c

/-- Regex class backslash-w (ASCII fragment: letters, digits, underscore). -/
def isWord (c : Char) : Bool := isAlpha c || isDigit c || c = '_'

/-- Python str.lower, ASCII fragment (the junk patterns' alphabet). -/
def lowerChar (c : Char) : Char :=
  if isUpper c then Char.ofNat (c.toNat + 32) else c

/-- Python str.strip on a character list: remove leading and trailing
whitespace. -/
def stripL (l : List Char) : List Char :=
  ((l.dropWhile isSpace).reverse.dropWhile isSpace).reverse

/-- Python str.strip. -/
def stripS (s : String) : String := ⟨stripL s.data⟩

/-- Python substring containment (the `in` operator on str). -/
def containsSub (hay needle : List Char) : Bool :=
  hay.tails.any fun t => needle.isPrefixOf t

/-- Python substring containment on String. -/
def strContains (hay needle : String) : Bool := containsSub hay.data needle.data

/-- Python str.startswith. -/
def startsWith (s pre : String) : Bool := pre.data.isPrefixOf s.data

/-- Python str.split on a single newline separator: split at every
occurrence, keeping empty pieces. -/
def splitLines (l : List Char) : List (List Char) :=
  match l with
  | [] => [[]]
  | c :: cs =>
    if c = '\n' then [] :: splitLines cs
    else
      match splitLines cs with
      | [] => [[c]]
      | h :: t => (c :: h) :: t

/-- Python text.split(newline) on String. -/
def splitNl (s : String) : List String :=
  (splitLines s.data).map fun l => ⟨l⟩

/-!
The Line Normalizer, PrimusPDFExtractor.normalize_text_line.

The Python body is three re.sub calls followed by str.strip:
  re.sub(whitespace* slash whitespace*, slash),
  re.sub(whitespace* dash  whitespace*, dash),
  re.sub(whitespace+, single space), then strip.

For the first two patterns, re.sub's left-to-right scan with the greedy
star can succeed at a position only by consuming the whole whitespace run
in front of the separator (a shorter prefix of the run would have to be
followed by the separator, but is followed by another whitespace
character), so the substitution is exactly: every whitespace run adjacent
to the separator (on either side) is deleted, and nothing else changes.
subSepGo below implements that scan as a one-pass machine: pending buffers
the current whitespace run (dropped if the run ends at the separator,
emitted otherwise), and the afterSep flag discards the run that trails a
separator, exactly as the greedy trailing whitespace-star of a match does.
-/

/-- Scanner for one re.sub pass of the pattern whitespace* sep whitespace*
replaced by sep.  pending holds the current whitespace run reversed;
afterSep is true while consuming the whitespace run trailing an emitted
separator. -/
def subSepGo (sep : Char) (afterSep : Bool) (pending l : List Char) :
    List Char :=
  match l with
  | [] => pending.reverse
  | c :: cs =>
    if isSpace c then
      if afterSep then subSepGo sep true [] cs
      else subSepGo sep false (c :: pending) cs
    else if c = sep then
      sep :: subSepGo sep true [] cs
    else
      pending.reverse ++ c :: subSepGo sep false [] cs

/-- One re.sub pass for the pattern whitespace* sep whitespace* replaced by
sep (sep is the slash or the dash character). -/
def subSep (sep : Char) (l : List Char) : List Char :=
  subSepGo sep false [] l

/-- Scanner for the re.sub pass replacing whitespace+ by a single space;
inRun is true while inside a whitespace run whose space was emitted. -/
def collapseGo (inRun : Bool) (l : List Char) : List Char :=
  match l with
  | [] => []
  | c :: cs =>
    if isSpace c then
      if inRun then collapseGo true cs else ' ' :: collapseGo true cs
    else c :: collapseGo false cs

/-- One re.sub pass for whitespace+ replaced by a single space. -/
def collapseWs (l : List Char) : List Char :=
  collapseGo false l

/-- Embeds normalize_text_line's pipeline on character lists. -/
def normalizeChars (l : List Char) : List Char :=
  stripL (collapseWs (subSep '-' (subSep '/' l)))

/-- PrimusPDFExtractor.normalize_text_line.  The Python guard
"if not line: return line" returns falsy (empty) input unchanged. -/
def normalize_text_line (s : String) : String :=
  if s = "" then s else ⟨normalizeChars s.data⟩

/-!
Normal form of the Line Normalizer's output, used to prove idempotence:
no whitespace adjacent to a separator, every whitespace run is one single
space character, no whitespace at either edge.
-/

/-- No pair of adjacent characters is whitespace-then-a or a-then-whitespace. -/
def RAdj (a : Char) (u v : Char) : Prop :=
  ¬(isSpace u = true ∧ v = a) ∧ ¬(u = a ∧ isSpace v = true)

/-- No whitespace character is adjacent to the character a anywhere in l. -/
def NoWsAdj (a : Char) (l : List Char) : Prop := List.Chain' (RAdj a) l

/-- Adjacent characters are not both whitespace. -/
def RWs (u v : Char) : Prop := ¬(isSpace u = true ∧ isSpace v = true)

/-- Whitespace is normalized: every whitespace character is a plain space
and no two adjacent characters are both whitespace. -/
def WsNorm (l : List Char) : Prop :=
  (∀ c ∈ l, isSpace c = true → c = ' ') ∧ List.Chain' RWs l

/-- Neither edge of the list is whitespace. -/
def NoEdgeWs (l : List Char) : Prop :=
  (∀ h ∈ l.head?, isSpace h = false) ∧ (∀ h ∈ l.getLast?, isSpace h = false)

theorem allWsChainRAdj (a : Char) (ha : isSpace a = false) :
    ∀ m : List Char, (∀ c ∈ m, isSpace c = true) → List.Chain' (RAdj a) m := by
  intro m
  induction m with
  | nil => intro _; exact List.chain'_nil
  | cons x t ih =>
    intro hall
    cases t with
    | nil => exact List.chain'_singleton x
    | cons y t' =>
      rw [List.chain'_cons]
      refine ⟨⟨?_, ?_⟩, ih ?_⟩
      · rintro ⟨_, rfl⟩
        exact absurd (hall y (by simp)) (by simp [ha])
      · rintro ⟨rfl, _⟩
        exact absurd (hall x (by simp)) (by simp [ha])
      · intro c hc; exact hall c (by simp [hc])

theorem subSepGoTrueHead (a : Char) (ha : isSpace a = false) :
    ∀ l : List Char, ∀ h ∈ (subSepGo a true [] l).head?, isSpace h = false := by
  intro l
  induction l with
  | nil => simp [subSepGo]
  | cons c cs ih =>
    intro h hh
    rw [subSepGo] at hh
    by_cases hsp : isSpace c
    · simp only [hsp, if_true, if_pos rfl] at hh
      exact ih h hh
    · simp only [hsp, Bool.false_eq_true, if_false] at hh
      by_cases hc : c = a
      · simp [hc] at hh; simp [hh ▸ ha]
      · simp [hc] at hh
        rcases hh with rfl
        simpa using hsp

theorem subSepGoFalseHead (a : Char) (ha : isSpace a = false) (l : List Char)
    (hl : ∀ h ∈ l.head?, isSpace h = false) :
    ∀ h ∈ (subSepGo a false [] l).head?, isSpace h = false := by
  cases l with
  | nil => simp [subSepGo]
  | cons c cs =>
    have hc : isSpace c = false := hl c (by simp)
    intro h hh
    rw [subSepGo] at hh
    simp only [hc, Bool.false_eq_true, if_false] at hh
    by_cases hca : c = a
    · simp [hca] at hh; simp [hh ▸ ha]
    · simp [hca] at hh; rcases hh with rfl; exact hc

theorem subSepGoNoWsAdj (a : Char) (ha : isSpace a = false) :
    ∀ (l pending : List Char) (flag : Bool),
      (∀ c ∈ pending, isSpace c = true) →
      NoWsAdj a (subSepGo a flag pending l) := by
  intro l
  induction l with
  | nil =>
    intro pending flag hp
    rw [NoWsAdj, subSepGo]
    exact allWsChainRAdj a ha _ (fun c hc => hp c (by simpa using hc))
  | cons c cs ih =>
    intro pending flag hp
    rw [NoWsAdj, subSepGo]
    by_cases hsp : isSpace c
    · simp only [hsp, if_true]
      cases flag with
      | true => exact ih [] true (by simp)
      | false =>
        exact ih (c :: pending) false (by
          intro x hx
          rcases List.mem_cons.mp hx with rfl | hx
          · exact hsp
          · exact hp x hx)
    · simp only [hsp, Bool.false_eq_true, if_false]
      by_cases hca : c = a
      · simp only [hca, if_true, if_pos rfl]
        rw [List.chain'_cons']
        refine ⟨?_, ih [] true (by simp)⟩
        intro y hy
        exact ⟨fun hk => by simp [ha] at hk,
               fun hk => by
                 have := subSepGoTrueHead a ha cs y hy
                 simp [this] at hk⟩
      · simp only [hca, if_false]
        rw [List.chain'_append]
        refine ⟨allWsChainRAdj a ha _ (fun x hx => hp x (by simpa using hx)),
                ?_, ?_⟩
        · rw [List.chain'_cons']
          refine ⟨?_, ih [] false (by simp)⟩
          intro y _
          exact ⟨fun hk => by simp [hsp] at hk, fun hk => absurd hk.1 hca⟩
        · intro x hx y hy
          have hxs : isSpace x = true :=
            hp x (by simpa using List.mem_of_mem_getLast? hx)
          simp only [List.head?_cons, Option.mem_def, Option.some.injEq] at hy
          subst hy
          exact ⟨fun hk => absurd hk.2 hca,
                 fun hk => by
                   rw [hk.1] at hxs; rw [ha] at hxs; exact Bool.noConfusion hxs⟩

theorem subSepGoPres (a b : Char) (ha : isSpace a = false) (hab : a ≠ b) :
    ∀ (l pending : List Char) (flag : Bool),
      (∀ c ∈ pending, isSpace c = true) →
      List.Chain' (RAdj b) (pending.reverse ++ l) →
      List.Chain' (RAdj b) (subSepGo a flag pending l) := by
  intro l
  induction l with
  | nil =>
    intro pending flag hp hch
    rw [subSepGo]
    simpa using hch
  | cons c cs ih =>
    intro pending flag hp hch
    have hcs : List.Chain' (RAdj b) (c :: cs) := (List.chain'_append.mp hch).2.1
    have hcs' : List.Chain' (RAdj b) cs := (List.chain'_cons'.mp hcs).2
    rw [subSepGo]
    by_cases hsp : isSpace c
    · simp only [hsp, if_true]
      cases flag with
      | true => exact ih [] true (by simp) (by simpa using hcs')
      | false =>
        refine ih (c :: pending) false ?_ ?_
        · intro x hx
          rcases List.mem_cons.mp hx with rfl | hx
          · exact hsp
          · exact hp x hx
        · simpa [List.append_assoc] using hch
    · simp only [hsp, Bool.false_eq_true, if_false]
      by_cases hca : c = a
      · simp only [hca, if_true, if_pos rfl]
        rw [List.chain'_cons']
        refine ⟨?_, ih [] true (by simp) (by simpa using hcs')⟩
        intro y _
        exact ⟨fun hk => by simp [ha] at hk, fun hk => absurd hk.1 hab⟩
      · simp only [hca, if_false]
        rw [List.chain'_append]
        refine ⟨(List.chain'_append.mp hch).1, ?_, ?_⟩
        · rw [List.chain'_cons']
          refine ⟨?_, ih [] false (by simp) (by simpa using hcs')⟩
          intro y hy
          refine ⟨fun hk => by simp [hsp] at hk, fun hk => ?_⟩
          have hhd : ∀ h ∈ cs.head?, isSpace h = false := by
            intro h0 hh0
            have := (List.chain'_cons'.mp hcs).1 h0 hh0
            exact by
              rcases this with ⟨_, h2⟩
              by_contra hcon
              exact h2 ⟨hk.1, by simpa using hcon⟩
          have := subSepGoFalseHead a ha cs hhd y hy
          exact absurd hk.2 (by simp [this])
        · intro x hx y hy
          simp only [List.head?_cons, Option.mem_def, Option.some.injEq] at hy
          subst hy
          exact (List.chain'_append.mp hch).2.2 x hx c (by simp)

theorem subSepGoId (a : Char) (ha : isSpace a = false) :
    ∀ (l pending : List Char) (flag : Bool),
      (∀ c ∈ pending, isSpace c = true) →
      (flag = true → pending = [] ∧ ∀ h ∈ l.head?, isSpace h = false) →
      List.Chain' (RAdj a) (pending.reverse ++ l) →
      subSepGo a flag pending l = pending.reverse ++ l := by
  intro l
  induction l with
  | nil =>
    intro pending flag hp hflag hch
    rw [subSepGo]; simp
  | cons c cs ih =>
    intro pending flag hp hflag hch
    have hcs : List.Chain' (RAdj a) (c :: cs) := (List.chain'_append.mp hch).2.1
    have hcs' : List.Chain' (RAdj a) cs := (List.chain'_cons'.mp hcs).2
    rw [subSepGo]
    by_cases hsp : isSpace c
    · simp only [hsp, if_true]
      cases flag with
      | true =>
        have := (hflag rfl).2 c (by simp)
        rw [hsp] at this; exact Bool.noConfusion this
      | false =>
        have := ih (c :: pending) false
          (by
            intro x hx
            rcases List.mem_cons.mp hx with rfl | hx
            · exact hsp
            · exact hp x hx)
          (by intro h; exact Bool.noConfusion h)
          (by simpa [List.append_assoc] using hch)
        rw [this]; simp
    · simp only [hsp, Bool.false_eq_true, if_false]
      by_cases hca : c = a
      · have hpe : pending = [] := by
          cases pending with
          | nil => rfl
          | cons p ps =>
            exfalso
            have hx : p ∈ (p :: ps).reverse.getLast? := by
              rw [List.getLast?_reverse]; simp
            have := (List.chain'_append.mp hch).2.2 p hx c (by simp)
            rcases this with ⟨h1, _⟩
            exact h1 ⟨hp p (by simp), hca⟩
        subst hpe
        simp only [hca, if_true, if_pos rfl]
        have hrec : subSepGo a true [] cs = cs := by
          refine ih [] true (by simp) ?_ (by simpa using hcs')
          refine fun _ => ⟨rfl, ?_⟩
          intro h hh
          have := (List.chain'_cons'.mp (by simpa using hcs)).1 h hh
          rcases this with ⟨_, h2⟩
          by_contra hcon
          exact h2 ⟨hca ▸ rfl, by simpa using hcon⟩
        rw [hrec]; simp [hca]
      · simp only [hca, if_false]
        have hrec : subSepGo a false [] cs = cs := by
          have := ih [] false (by simp) (by intro h; exact Bool.noConfusion h)
            (by simpa using hcs')
          simpa using this
        rw [hrec]

/-- NoWsAdj for the separator holds after one subSep pass. -/
theorem subSepNoWsAdj (a : Char) (ha : isSpace a = false) (l : List Char) :
    NoWsAdj a (subSep a l) :=
  subSepGoNoWsAdj a ha l [] false (by simp)

/-- One subSep pass for a does not create whitespace adjacent to b. -/
theorem subSepPres (a b : Char) (ha : isSpace a = false) (hab : a ≠ b)
    (l : List Char) (h : NoWsAdj b l) : NoWsAdj b (subSep a l) :=
  subSepGoPres a b ha hab l [] false (by simp) (by simpa using h)

/-- A list with no whitespace adjacent to the separator is a fixed point of
subSep. -/
theorem subSepId (a : Char) (ha : isSpace a = false) (l : List Char)
    (h : NoWsAdj a l) : subSep a l = l := by
  have := subSepGoId a ha l [] false (by simp)
    (by intro hk; exact Bool.noConfusion hk) (by simpa using h)
  simpa using this

theorem collapseGoTrueHead :
    ∀ l : List Char, ∀ h ∈ (collapseGo true l).head?, isSpace h = false := by
  intro l
  induction l with
  | nil => simp [collapseGo]
  | cons c cs ih =>
    intro h hh
    rw [collapseGo] at hh
    by_cases hsp : isSpace c
    · simp only [hsp, if_true] at hh
      exact ih h hh
    · simp only [hsp, Bool.false_eq_true, if_false, List.head?_cons,
        Option.mem_def, Option.some.injEq] at hh
      exact hh ▸ (by simpa using hsp)

theorem collapseGoFalseHead (l : List Char)
    (hl : ∀ h ∈ l.head?, isSpace h = false) :
    ∀ h ∈ (collapseGo false l).head?, isSpace h = false := by
  cases l with
  | nil => simp [collapseGo]
  | cons c cs =>
    have hc : isSpace c = false := hl c (by simp)
    intro h hh
    rw [collapseGo] at hh
    simp only [hc, Bool.false_eq_true, if_false, List.head?_cons,
      Option.mem_def, Option.some.injEq] at hh
    exact hh ▸ hc

theorem collapseGoMemWs :
    ∀ (l : List Char) (flag : Bool),
      ∀ c ∈ collapseGo flag l, isSpace c = true → c = ' ' := by
  intro l
  induction l with
  | nil => intro flag c hc; rw [collapseGo] at hc; simp at hc
  | cons x cs ih =>
    intro flag c hc hcs
    rw [collapseGo] at hc
    by_cases hsp : isSpace x
    · simp only [hsp, if_true] at hc
      cases flag with
      | true => exact ih true c hc hcs
      | false =>
        simp only [Bool.false_eq_true, if_false] at hc
        rcases List.mem_cons.mp hc with rfl | hc
        · rfl
        · exact ih true c hc hcs
    · simp only [hsp, Bool.false_eq_true, if_false] at hc
      rcases List.mem_cons.mp hc with rfl | hc
      · exact absurd hcs hsp
      · exact ih false c hc hcs

theorem collapseGoChain :
    ∀ (l : List Char) (flag : Bool), List.Chain' RWs (collapseGo flag l) := by
  intro l
  induction l with
  | nil => intro flag; rw [collapseGo]; exact List.chain'_nil
  | cons c cs ih =>
    intro flag
    rw [collapseGo]
    by_cases hsp : isSpace c
    · simp only [hsp, if_true]
      cases flag with
      | true => exact ih true
      | false =>
        simp only [Bool.false_eq_true, if_false]
        rw [List.chain'_cons']
        refine ⟨?_, ih true⟩
        intro y hy
        have := collapseGoTrueHead cs y hy
        exact fun hk => by rw [this] at hk; exact Bool.noConfusion hk.2
    · simp only [hsp, Bool.false_eq_true, if_false]
      rw [List.chain'_cons']
      refine ⟨?_, ih false⟩
      intro y _
      exact fun hk => hsp hk.1

theorem collapseGoTrueHeadNe (b : Char) :
    ∀ (cs : List Char) (prev : Char), isSpace prev = true →
      List.Chain' (RAdj b) (prev :: cs) →
      ∀ h ∈ (collapseGo true cs).head?, h ≠ b := by
  intro cs
  induction cs with
  | nil => intro prev _ _; simp [collapseGo]
  | cons d t ih =>
    intro prev hprev hch h hh
    rw [collapseGo] at hh
    by_cases hsp : isSpace d
    · simp only [hsp, if_true] at hh
      exact ih d hsp (List.chain'_cons.mp hch).2 h hh
    · simp only [hsp, Bool.false_eq_true, if_false, List.head?_cons,
        Option.mem_def, Option.some.injEq] at hh
      subst hh
      have := (List.chain'_cons.mp hch).1
      exact fun hk => this.1 ⟨hprev, hk⟩

theorem collapseGoPres (b : Char) (hb : isSpace b = false) :
    ∀ (l : List Char) (flag : Bool),
      List.Chain' (RAdj b) l → List.Chain' (RAdj b) (collapseGo flag l) := by
  intro l
  induction l with
  | nil => intro flag _; rw [collapseGo]; exact List.chain'_nil
  | cons c cs ih =>
    intro flag hch
    have hcs : List.Chain' (RAdj b) cs := (List.chain'_cons'.mp hch).2
    rw [collapseGo]
    by_cases hsp : isSpace c
    · simp only [hsp, if_true]
      cases flag with
      | true => exact ih true hcs
      | false =>
        simp only [Bool.false_eq_true, if_false]
        rw [List.chain'_cons']
        refine ⟨?_, ih true hcs⟩
        intro y hy
        have hne : y ≠ b := collapseGoTrueHeadNe b cs c hsp hch y hy
        refine ⟨fun hk => hne hk.2, fun hk => ?_⟩
        rw [← hk.1] at hb
        exact absurd hb (by decide)
    · simp only [hsp, Bool.false_eq_true, if_false]
      rw [List.chain'_cons']
      refine ⟨?_, ih false hcs⟩
      intro y hy
      refine ⟨fun hk => hsp hk.1, fun hk => ?_⟩
      have hhd : ∀ h ∈ cs.head?, isSpace h = false := by
        intro h0 hh0
        have := (List.chain'_cons'.mp hch).1 h0 hh0
        by_contra hcon
        exact this.2 ⟨hk.1, by simpa using hcon⟩
      have := collapseGoFalseHead cs hhd y hy
      rw [this] at hk
      exact Bool.noConfusion hk.2

theorem collapseGoTrueEqFalse (l : List Char)
    (hl : ∀ h ∈ l.head?, isSpace h = false) :
    collapseGo true l = collapseGo false l := by
  cases l with
  | nil => rfl
  | cons c cs =>
    have hc : isSpace c = false := hl c (by simp)
    rw [collapseGo, collapseGo]
    simp [hc]

theorem collapseGoId :
    ∀ l : List Char, (∀ c ∈ l, isSpace c = true → c = ' ') →
      List.Chain' RWs l → collapseGo false l = l := by
  intro l
  induction l with
  | nil => intro _ _; rfl
  | cons c cs ih =>
    intro hmem hch
    have hcs : List.Chain' RWs cs := (List.chain'_cons'.mp hch).2
    rw [collapseGo]
    by_cases hsp : isSpace c
    · simp only [hsp, if_true, Bool.false_eq_true, if_false]
      have hc : c = ' ' := hmem c (by simp) hsp
      have hhd : ∀ h ∈ cs.head?, isSpace h = false := by
        intro h0 hh0
        have := (List.chain'_cons'.mp hch).1 h0 hh0
        by_contra hcon
        exact this ⟨hsp, by simpa using hcon⟩
      rw [collapseGoTrueEqFalse cs hhd,
        ih (fun x hx => hmem x (by simp [hx])) hcs, hc]
    · simp only [hsp, Bool.false_eq_true, if_false]
      rw [ih (fun x hx => hmem x (by simp [hx])) hcs]

theorem dropWhileHeadFalse (p : Char → Bool) :
    ∀ l : List Char, ∀ h ∈ (l.dropWhile p).head?, p h = false := by
  intro l
  induction l with
  | nil => simp
  | cons c cs ih =>
    intro h hh
    rw [List.dropWhile_cons] at hh
    by_cases hc : p c
    · simp only [hc, if_true] at hh
      exact ih h hh
    · simp only [hc, Bool.false_eq_true, if_false, List.head?_cons,
        Option.mem_def, Option.some.injEq] at hh
      exact hh ▸ (by simpa using hc)

theorem dropWhileEqSelf (p : Char → Bool) (l : List Char)
    (hl : ∀ h ∈ l.head?, p h = false) : l.dropWhile p = l := by
  cases l with
  | nil => rfl
  | cons c cs =>
    have hc : p c = false := hl c (by simp)
    rw [List.dropWhile_cons]
    simp [hc]

/-- The stripped list sits inside the original between two whitespace runs. -/
theorem stripDecompDrop (l : List Char) :
    stripL l ++ ((l.dropWhile isSpace).reverse.takeWhile isSpace).reverse =
      l.dropWhile isSpace := by
  rw [stripL]
  rw [← List.reverse_append]
  rw [List.takeWhile_append_dropWhile]
  exact List.reverse_reverse _

/-- Full decomposition of a list around its stripped core. -/
theorem stripDecomp (l : List Char) :
    l.takeWhile isSpace ++
      (stripL l ++ ((l.dropWhile isSpace).reverse.takeWhile isSpace).reverse) =
      l := by
  rw [stripDecompDrop]
  exact List.takeWhile_append_dropWhile isSpace l

theorem stripPreservesChain {R : Char → Char → Prop} (l : List Char)
    (h : List.Chain' R l) : List.Chain' R (stripL l) := by
  have hd := stripDecomp l
  rw [← hd] at h
  exact (List.chain'_append.mp (List.chain'_append.mp h).2.1).1

theorem stripPreservesMem (l : List Char) (c : Char) (hc : c ∈ stripL l) :
    c ∈ l := by
  have hd := stripDecomp l
  rw [← hd]
  simp [hc]

theorem stripNoEdge (l : List Char) : NoEdgeWs (stripL l) := by
  constructor
  · intro h hh
    have hx : (stripL l ++
        ((l.dropWhile isSpace).reverse.takeWhile isSpace).reverse).head? =
        some h := by
      cases hs : stripL l with
      | nil => rw [hs] at hh; simp at hh
      | cons x xs => rw [hs] at hh; simpa using hh
    rw [stripDecompDrop l] at hx
    exact dropWhileHeadFalse isSpace l h hx
  · intro h hh
    rw [stripL, List.getLast?_reverse] at hh
    exact dropWhileHeadFalse isSpace _ h hh

theorem stripId (l : List Char) (h : NoEdgeWs l) : stripL l = l := by
  rcases h with ⟨h1, h2⟩
  rw [stripL]
  rw [dropWhileEqSelf isSpace l h1]
  rw [dropWhileEqSelf isSpace l.reverse (by
    intro x hx
    rw [List.head?_reverse] at hx
    exact h2 x hx)]
  exact List.reverse_reverse l

/-- The normal-form properties of the Line Normalizer's output. -/
theorem normalizeCharsProps (l : List Char) :
    NoWsAdj '/' (normalizeChars l) ∧ NoWsAdj '-' (normalizeChars l) ∧
    (∀ c ∈ normalizeChars l, isSpace c = true → c = ' ') ∧
    List.Chain' RWs (normalizeChars l) ∧ NoEdgeWs (normalizeChars l) := by
  have hsl : isSpace '/' = false := by decide
  have hda : isSpace '-' = false := by decide
  have hne : '-' ≠ '/' := by decide
  have h1 : NoWsAdj '/' (subSep '/' l) := subSepNoWsAdj '/' hsl l
  have h2 : NoWsAdj '/' (subSep '-' (subSep '/' l)) :=
    subSepPres '-' '/' hda hne _ h1
  have h3 : NoWsAdj '-' (subSep '-' (subSep '/' l)) := subSepNoWsAdj '-' hda _
  have h4 : NoWsAdj '/' (collapseWs (subSep '-' (subSep '/' l))) :=
    collapseGoPres '/' hsl _ false h2
  have h5 : NoWsAdj '-' (collapseWs (subSep '-' (subSep '/' l))) :=
    collapseGoPres '-' hda _ false h3
  refine ⟨stripPreservesChain _ h4, stripPreservesChain _ h5, ?_, ?_, ?_⟩
  · intro c hc
    exact collapseGoMemWs _ false c (stripPreservesMem _ c hc)
  · exact stripPreservesChain _ (collapseGoChain _ false)
  · exact stripNoEdge _

/-- A list in normal form is a fixed point of the whole normalizer. -/
theorem normalizeCharsId (l : List Char)
    (h1 : NoWsAdj '/' l) (h2 : NoWsAdj '-' l)
    (h3 : ∀ c ∈ l, isSpace c = true → c = ' ')
    (h4 : List.Chain' RWs l) (h5 : NoEdgeWs l) :
    normalizeChars l = l := by
  have hsl : isSpace '/' = false := by decide
  have hda : isSpace '-' = false := by decide
  rw [normalizeChars, subSepId '/' hsl l h1, subSepId '-' hda l h2]
  rw [show collapseWs l = l from collapseGoId l h3 h4]
  exact stripId l h5

theorem normalizeCharsIdem (l : List Char) :
    normalizeChars (normalizeChars l) = normalizeChars l := by
  obtain ⟨h1, h2, h3, h4, h5⟩ := normalizeCharsProps l
  exact normalizeCharsId _ h1 h2 h3 h4 h5

/-- C7: the Line Normalizer is idempotent: for every input string x,
normalize_text_line (normalize_text_line x) = normalize_text_line x, so
applying it to already-normalized text is a no-op. -/
theorem normalize_text_line_idempotent (x : String) :
    normalize_text_line (normalize_text_line x) = normalize_text_line x := by
  by_cases hx : x = ""
  · subst hx; rfl
  · have hinner : normalize_text_line x = ⟨normalizeChars x.data⟩ := by
      rw [normalize_text_line, if_neg hx]
    rw [hinner]
    by_cases hyy : (⟨normalizeChars x.data⟩ : String) = ""
    · rw [normalize_text_line, if_pos hyy]
    · rw [normalize_text_line, if_neg hyy]
      exact congrArg String.mk (normalizeCharsIdem x.data)

/-!
The Tabular (Primus) strategy,
PrimusPDFExtractor.extract_primus_format_chunks.

Each regex used by the strategy is translated as a deterministic matcher;
greediness never needs backtracking because every starred or plus-ed class
is followed in the pattern by a character that the class cannot match.
-/

/-- Regex match for the reference-code-ending pattern: start of line, three
digits, then whitespace or end of line. -/
def is3DigitRef (l : List Char) : Bool :=
  match l with
  | d1 :: d2 :: d3 :: rest =>
    isDigit d1 && isDigit d2 && isDigit d3 &&
      (match rest with
       | [] => true
       | c :: _ => isSpace c)
  | _ => false

/-- Parse the leading one-or-two-digit number of the patterns, the group
[1-9] followed by an optional digit; returns the number and the rest. -/
def parseNum12 (l : List Char) : Option (Nat × List Char) :=
  match l with
  | [] => none
  | c :: rest =>
    if '1' ≤ c && c ≤ '9' then
      match rest with
      | d :: rest2 =>
        if isDigit d then some ((c.toNat - 48) * 10 + (d.toNat - 48), rest2)
        else some (c.toNat - 48, rest)
      | [] => some (c.toNat - 48, [])
    else none

/-- Regex match for a main work-item start: leading number, whitespace,
then a capitalized word of at least four letters; returns the number and
the matched word (regex group two, the greedy [A-Z][a-zA-Z]{3,}). -/
def mainItemMatch (l : List Char) : Option (Nat × List Char) :=
  match parseNum12 l with
  | none => none
  | some (n, rest) =>
    if rest.takeWhile isSpace = [] then none
    else
      match rest.dropWhile isSpace with
      | [] => none
      | c :: rest2 =>
        if isUpper c then
          let w := rest2.takeWhile isAlpha
          if 3 ≤ w.length then some (n, c :: w) else none
        else none

/-- Regex match for the tabular fraction pattern: leading number, a slash,
then at least one digit; returns the number. -/
def fracMatchTab (l : List Char) : Option Nat :=
  match parseNum12 l with
  | none => none
  | some (n, rest) =>
    match rest with
    | '/' :: d :: _ => if isDigit d then some n else none
    | _ => none

/-- Regex match for the special-case pattern: one of the numbers 13, 37, 74
then whitespace and one of the lowercase lead words cemento, metalli,
legno. -/
def specialCaseMatch (l : List Char) : Bool :=
  match l with
  | a :: b :: rest =>
    ((a = '1' && b = '3') || (a = '3' && b = '7') || (a = '7' && b = '4')) &&
      !(rest.takeWhile isSpace).isEmpty &&
      (let r := rest.dropWhile isSpace
       "cemento".data.isPrefixOf r || "metalli".data.isPrefixOf r ||
         "legno".data.isPrefixOf r)
  | _ => false

/-- The false-positive blacklist applied to the lead word of a main item
match: descriptive_word.lower().startswith(("circuit", "linea", "sotto")). -/
def blacklistWord (w : List Char) : Bool :=
  let lw := w.map lowerChar
  "circuit".data.isPrefixOf lw || "linea".data.isPrefixOf lw ||
    "sotto".data.isPrefixOf lw

/-- Classification of a line as a new-item-start candidate: none when no
pattern matches, some valid when one matches, where valid reflects the
code's valid_item flag (main matches are filtered by the 1-100 bound and
the lead-word blacklist, fraction and special matches are always valid). -/
def newItemCheck (ls : String) : Option Bool :=
  match mainItemMatch ls.data with
  | some (n, w) => some (decide (n ≤ 100) && !blacklistWord w)
  | none =>
    match fracMatchTab ls.data with
    | some _ => some true
    | none => if specialCaseMatch ls.data then some true else none

/-- The carry-forward and footer boilerplate excluded from continuation
lines. -/
def contBlacklist (ls : String) : Bool :=
  startsWith ls "A R I P O R T A R E" || startsWith ls "R I P O R T O" ||
    startsWith ls "COMMITTENTE" || startsWith ls "Pag."

/-- The data-section header markers; a line holding one sets
in_data_section and is consumed. -/
def isHeaderLine (ls : String) : Bool :=
  strContains ls "DESIGNAZIONE DEI LAVORI" || strContains ls "LAVORI A CORPO"

/-- Python's newline-join of the accumulated chunk lines followed by strip,
as in chunk_text of the source. -/
def chunkText (c : List String) : String :=
  stripS (String.intercalate "\n" c)

/-- Scan state of extract_primus_format_chunks: sealed chunks (kept as
their line lists; the emitted string of a chunk is chunkText of it), the
open chunk, and the in_data_section flag. -/
structure PState where
  chunks : List (List String)
  current : List String
  inData : Bool
deriving DecidableEq

/-- Seal the open chunk: append it when its text is longer than the
30-character floor, else discard it. -/
def sealChunk (st : PState) : List (List String) :=
  if 30 < (chunkText st.current).length then st.chunks ++ [st.current]
  else st.chunks

/-- One loop iteration of extract_primus_format_chunks. -/
def primusStep (st : PState) (line : String) : PState :=
  let ls := stripS line
  if ls = "" then st
  else if isHeaderLine ls then { st with inData := true }
  else if st.inData = false then st
  else if is3DigitRef ls.data then
    if st.current = [] then st
    else { st with current := st.current ++ [ls] }
  else
    match newItemCheck ls with
    | some valid =>
      if valid then
        { chunks := sealChunk st, current := [ls], inData := st.inData }
      else if st.current = [] then st
      else { st with current := st.current ++ [ls] }
    | none =>
      if st.current ≠ [] ∧ contBlacklist ls = false then
        { st with current := st.current ++ [ls] }
      else st

/-- Initial scan state. -/
def primusInit : PState := ⟨[], [], false⟩

/-- The whole scan of extract_primus_format_chunks. -/
def primusRun (lines : List String) : PState :=
  lines.foldl primusStep primusInit

/-- Chunks of the Tabular strategy at the line level (the source emits
chunkText of each). -/
def primusChunkLines (text : String) : List (List String) :=
  sealChunk (primusRun (splitNl text))

/-- PrimusPDFExtractor.extract_primus_format_chunks. -/
def extract_primus_format_chunks (text : String) : List String :=
  (primusChunkLines text).map chunkText

/-- C2 counterexample: the claim quantifies over every line beginning with
a 3-digit token while a chunk is open, but a line that also holds a
section-header marker (here LAVORI A CORPO) is consumed by the header
branch and dropped, not appended. -/
theorem primus_three_digit_counterexample :
    ¬ (∀ (st : PState) (line : String), st.inData = true →
        st.current ≠ [] → is3DigitRef (stripS line).data = true →
        primusStep st line =
          { st with current := st.current ++ [stripS line] }) := by
  intro h
  have := h ⟨[], ["x"], true⟩ "005 LAVORI A CORPO" rfl (by decide) (by decide)
  exact absurd this (by decide)

/-- C2 amended: in the Tabular strategy, every line whose stripped text
begins with a 3-digit numeric token followed by whitespace or end of line,
does not hold a section-header marker, and is met while a chunk is open,
is appended to the current chunk and never starts a new one. -/
theorem primus_three_digit_appends (st : PState) (line : String)
    (hdata : st.inData = true) (hcur : st.current ≠ [])
    (hhead : isHeaderLine (stripS line) = false)
    (h3 : is3DigitRef (stripS line).data = true) :
    primusStep st line = { st with current := st.current ++ [stripS line] } := by
  have hne : stripS line ≠ "" := by
    intro he
    rw [he] at h3
    exact absurd h3 (by decide)
  rw [primusStep]
  simp only [hne, if_false, hhead, Bool.false_eq_true, hdata, h3, if_true]
  simp [hcur]

/-- C2 witness: the line 005 right after an open chunk is appended to that
chunk and does not start item 5. -/
theorem primus_three_digit_appends_witness :
    primusStep ⟨[], ["1 Scavo di sterro in pozzo"], true⟩ "005" =
      ⟨[], ["1 Scavo di sterro in pozzo", "005"], true⟩ :=
  primus_three_digit_appends ⟨[], ["1 Scavo di sterro in pozzo"], true⟩ "005"
    rfl (by decide) (by decide) (by decide)

/-- C5: a main-pattern new-item-start candidate (leading number plus
capitalized word) starts a new chunk exactly when its number is at most
100 and its lead word is not blacklisted; otherwise it is treated as a
continuation line and starts nothing. -/
theorem primus_new_item_filter (st : PState) (line : String) (n : Nat)
    (w : List Char)
    (hdata : st.inData = true)
    (hhead : isHeaderLine (stripS line) = false)
    (h3 : is3DigitRef (stripS line).data = false)
    (hm : mainItemMatch (stripS line).data = some (n, w)) :
    (n ≤ 100 ∧ blacklistWord w = false →
      primusStep st line =
        { chunks := sealChunk st, current := [stripS line],
          inData := st.inData }) ∧
    (100 < n ∨ blacklistWord w = true →
      primusStep st line =
        if st.current = [] then st
        else { st with current := st.current ++ [stripS line] }) := by
  have hne : stripS line ≠ "" := by
    intro he
    rw [he] at hm
    rw [show mainItemMatch "".data = none from by decide] at hm
    exact Option.noConfusion hm
  have hni : newItemCheck (stripS line) =
      some (decide (n ≤ 100) && !blacklistWord w) := by
    rw [newItemCheck, hm]
  constructor
  · rintro ⟨hn, hb⟩
    have hv : (decide (n ≤ 100) && !blacklistWord w) = true := by
      simp [hn, hb]
    rw [primusStep]
    simp only [hne, if_false, hhead, Bool.false_eq_true, hdata, h3, hni, hv,
      if_true]
    simp
  · intro hor
    have hv : (decide (n ≤ 100) && !blacklistWord w) = false := by
      rcases hor with hn | hb
      · simp [Nat.not_le.mpr hn]
      · simp [hb]
    rw [primusStep]
    simp only [hne, if_false, hhead, Bool.false_eq_true, hdata, h3, hni, hv,
      if_true]
    simp

/-- C5 witness: a valid candidate line starts a new chunk, and a candidate
with a blacklisted lead word (Linea) is appended instead. -/
theorem primus_new_item_filter_witness :
    primusStep ⟨[], ["x"], true⟩ "5 Scavo a sezione obbligata" =
      ⟨[], ["5 Scavo a sezione obbligata"], true⟩ ∧
    primusStep ⟨[], ["x"], true⟩ "5 Linea elettrica" =
      ⟨[], ["x", "5 Linea elettrica"], true⟩ := by
  constructor
  · have h := (primus_new_item_filter ⟨[], ["x"], true⟩
      "5 Scavo a sezione obbligata" 5 "Scavo".data rfl (by decide) (by decide)
      (by decide)).1 ⟨by decide, by decide⟩
    rw [h]
    decide
  · have h := (primus_new_item_filter ⟨[], ["x"], true⟩
      "5 Linea elettrica" 5 "Linea".data rfl (by decide) (by decide)
      (by decide)).2 (Or.inr (by decide))
    rw [h]
    decide

/-!
C6: line coverage of the Tabular strategy.
-/

/-- All lines the scan state still holds, sealed chunks first. -/
def stateLines (st : PState) : List String :=
  st.chunks.flatten ++ st.current

theorem sealChunkFlattenSublist (st : PState) :
    ((sealChunk st).flatten).Sublist (stateLines st) := by
  rw [sealChunk, stateLines]
  split
  · rw [List.flatten_append]
    rw [show List.flatten [st.current] = st.current from by simp]
  · exact List.sublist_append_left _ _

theorem primusStepSublist (st : PState) (line : String) :
    (stateLines (primusStep st line)).Sublist
      (stateLines st ++ [stripS line]) := by
  have happ : ∀ (A B : List String) (x : String),
      (A ++ (B ++ [x])).Sublist (A ++ B ++ [x]) := by
    intro A B x
    rw [List.append_assoc]
  rw [primusStep]
  split
  · exact List.sublist_append_left _ _
  split
  · exact List.sublist_append_left _ _
  split
  · exact List.sublist_append_left _ _
  split
  · split
    · exact List.sublist_append_left _ _
    · exact happ _ _ _
  · split
    · split
      · exact (sealChunkFlattenSublist st).append_right [stripS line]
      · split
        · exact List.sublist_append_left _ _
        · exact happ _ _ _
    · split
      · exact happ _ _ _
      · exact List.sublist_append_left _ _

theorem primusFoldSublist :
    ∀ (lines : List String) (st : PState),
      (stateLines (lines.foldl primusStep st)).Sublist
        (stateLines st ++ lines.map stripS) := by
  intro lines
  induction lines with
  | nil => intro st; simpa using List.Sublist.refl (stateLines st)
  | cons l ls ih =>
    intro st
    rw [List.foldl_cons]
    refine (ih (primusStep st l)).trans ?_
    have h1 := primusStepSublist st l
    have h2 := h1.append_right (ls.map stripS)
    refine h2.trans ?_
    rw [List.map_cons, List.append_assoc]
    exact List.Sublist.refl _

/-- C6 amended: each input line occurrence lands in at most one output
chunk: the concatenation of the output chunks' lines is a subsequence of
the stripped input line sequence (no duplication, no reordering, no
fabricated lines).  Full coverage fails: beyond the continuation
blacklist, the strategy also silently drops lines met before the data
section opens, lines met with no open chunk, and every line of a chunk
whose text is at most 30 characters long. -/
theorem primus_coverage_amended (text : String) :
    ((primusChunkLines text).flatten).Sublist ((splitNl text).map stripS) := by
  rw [primusChunkLines, primusRun]
  refine (sealChunkFlattenSublist _).trans ?_
  have := primusFoldSublist (splitNl text) primusInit
  simpa [stateLines, primusInit] using this

/-- Input of the C6 counterexample: the Tabular strategy accepts it and
returns one chunk, but the line 1 Nolo of the input is dropped because its
chunk fell below the 30-character floor, and it is not blacklisted noise. -/
def covText : String :=
  "DESIGNAZIONE DEI LAVORI\n1 Nolo\n2 Demolizione di fabbricati con struttura in cemento armato"

/-- C6 counterexample: it is not the case that every non-empty input line
of an accepted line sequence appears in exactly one output chunk or is
blacklisted noise: in covText the line 1 Nolo is silently lost. -/
theorem primus_coverage_counterexample :
    ¬ (∀ text : String, extract_primus_format_chunks text ≠ [] →
        ∀ ls ∈ (splitNl text).map stripS, ls ≠ "" →
          ((primusChunkLines text).countP (fun c => decide (ls ∈ c)) = 1 ∨
            contBlacklist ls = true)) := by
  intro h
  have := h covText (by decide) "1 Nolo" (by decide) (by decide)
  rcases this with h1 | h1
  · exact absurd h1 (by decide)
  · exact absurd h1 (by decide)

/-!
The fraction-numbered strategy,
PrimusPDFExtractor.extract_fraction_format_chunks.
-/

/-- Regex match for a fraction-format item start: digits, slash, digits,
whitespace, then a digit or an uppercase letter. -/
def fracStartMatch (l : List Char) : Bool :=
  if l.takeWhile isDigit = [] then false
  else
    match l.dropWhile isDigit with
    | '/' :: rest =>
      if rest.takeWhile isDigit = [] then false
      else
        let r2 := rest.dropWhile isDigit
        if r2.takeWhile isSpace = [] then false
        else
          match r2.dropWhile isSpace with
          | c :: _ => isDigit c || isUpper c
          | [] => false
    | _ => false

/-- Scan state of extract_fraction_format_chunks. -/
structure FState where
  chunks : List (List String)
  current : List String
deriving DecidableEq

/-- Seal a fraction chunk: kept only when its text exceeds the
50-character floor. -/
def fracSeal (chunks : List (List String)) (cur : List String) :
    List (List String) :=
  if 50 < (chunkText cur).length then chunks ++ [cur] else chunks

/-- One loop iteration of extract_fraction_format_chunks: a fraction start
seals the open chunk and opens a new one; other lines are continuations,
and a SOMMANO continuation seals the chunk eagerly. -/
def fracStep (st : FState) (line : String) : FState :=
  let ls := stripS line
  if ls = "" then st
  else if fracStartMatch ls.data then
    ⟨fracSeal st.chunks st.current, [ls]⟩
  else if st.current = [] then st
  else
    let cur := st.current ++ [ls]
    if strContains ls "SOMMANO" then ⟨fracSeal st.chunks cur, []⟩
    else ⟨st.chunks, cur⟩

/-- PrimusPDFExtractor.extract_fraction_format_chunks. -/
def extract_fraction_format_chunks (text : String) : List String :=
  let st := (splitNl text).foldl fracStep ⟨[], []⟩
  (fracSeal st.chunks st.current).map chunkText

/-!
The generic pattern cascade and the SOMMANO-grouping fallback, the second
half of PrimusPDFExtractor.extract_work_item_chunks.
-/

/-- re.split on a zero-width lookahead pattern: the text is cut exactly at
the positions whose suffix satisfies p (Python puts an empty piece first
when position zero matches; zero-width matches are at least one position
apart). -/
def lookSplitGo (p : List Char → Bool) (acc l : List Char) :
    List (List Char) :=
  match l with
  | [] => [acc.reverse]
  | c :: cs =>
    if p (c :: cs) then acc.reverse :: lookSplitGo p [c] cs
    else lookSplitGo p (c :: acc) cs

/-- re.split of the whole text on a lookahead pattern. -/
def lookaheadSplit (p : List Char → Bool) (l : List Char) :
    List (List Char) :=
  lookSplitGo p [] l

/-- Cascade pattern one: newline, digits, spaces, slash, spaces, digits,
whitespace, letter. -/
def pat1 (l : List Char) : Bool :=
  match l with
  | '\n' :: r =>
    if r.takeWhile isDigit = [] then false
    else
      match (r.dropWhile isDigit).dropWhile isSpace with
      | '/' :: r2 =>
        let r3 := r2.dropWhile isSpace
        if r3.takeWhile isDigit = [] then false
        else
          let r4 := r3.dropWhile isDigit
          if r4.takeWhile isSpace = [] then false
          else
            match r4.dropWhile isSpace with
            | c :: _ => isAlpha c
            | [] => false
      | _ => false
  | _ => false

/-- The negative lookahead of cascade pattern two: three digits followed by
whitespace. -/
def dddSp (r : List Char) : Bool :=
  match r with
  | a :: b :: c :: d :: _ => isDigit a && isDigit b && isDigit c && isSpace d
  | _ => false

/-- Cascade pattern two: newline, digits not opening a 3-digit-plus-space
group, whitespace, uppercase letter. -/
def pat2 (l : List Char) : Bool :=
  match l with
  | '\n' :: r =>
    !dddSp r &&
      !(r.takeWhile isDigit).isEmpty &&
      !((r.dropWhile isDigit).takeWhile isSpace).isEmpty &&
      (match (r.dropWhile isDigit).dropWhile isSpace with
       | c :: _ => isUpper c
       | [] => false)
  | _ => false

/-- Cascade pattern three: newline, digits, whitespace, digits, a dot, then
a word character. -/
def pat3 (l : List Char) : Bool :=
  match l with
  | '\n' :: r =>
    !(r.takeWhile isDigit).isEmpty &&
      (let r2 := (r.dropWhile isDigit)
       !(r2.takeWhile isSpace).isEmpty &&
         (let r3 := r2.dropWhile isSpace
          !(r3.takeWhile isDigit).isEmpty &&
            (match r3.dropWhile isDigit with
             | '.' :: c :: _ => isWord c
             | _ => false)))
  | _ => false

/-- The candidate chunks one cascade pattern yields: split segments that
are non-empty after strip, contain SOMMANO, and whose stripped text
exceeds 50 characters; the stripped text is kept. -/
def validCascadeChunks (p : List Char → Bool) (text : String) :
    List String :=
  (lookaheadSplit p text.data).filterMap fun l =>
    let s := stripS ⟨l⟩
    if s ≠ "" ∧ containsSub l "SOMMANO".data ∧ 50 < s.length then some s
    else none

/-- The cascade keeps the pattern with strictly the most valid chunks,
trying the three patterns in order. -/
def cascadeBest (text : String) : List String :=
  let step := fun (best : List String) (p : List Char → Bool) =>
    let v := validCascadeChunks p text
    if best.length < v.length then v else best
  step (step (step [] pat1) pat2) pat3

/-- The anchor of the fallback grouping: stripped chunk text starting with
digits followed by whitespace. -/
def startsNumWs (s : String) : Bool :=
  !(s.data.takeWhile isDigit).isEmpty &&
    !((s.data.dropWhile isDigit).takeWhile isSpace).isEmpty

/-- One loop iteration of the SOMMANO-grouping fallback: every raw line is
accumulated; a SOMMANO line with more than five accumulated lines seals
the group when its stripped text starts with a number, and resets. -/
def fallbackStep (st : List String × List String) (line : String) :
    List String × List String :=
  let cur := st.2 ++ [line]
  if strContains line "SOMMANO" ∧ 5 < cur.length then
    if startsNumWs (stripS (String.intercalate "\n" cur)) then
      (st.1 ++ [stripS (String.intercalate "\n" cur)], [])
    else (st.1, [])
  else (st.1, cur)

/-- The SOMMANO-grouping fallback of extract_work_item_chunks (the open
group left at end of input is dropped, as in the source). -/
def sommano_fallback_chunks (text : String) : List String :=
  ((splitNl text).foldl fallbackStep ([], [])).1

/-- The generic part of the engine: the cascade's best result, or the
fallback grouping when the cascade found nothing. -/
def genericPart (text : String) : List String :=
  if cascadeBest text = [] then sommano_fallback_chunks text
  else cascadeBest text

/-- The strategy-selection logic of extract_work_item_chunks on the cleaned
document text: with both markers present, the Tabular then the fraction
strategy win when they clear the 200-chunk floor; otherwise the generic
part runs. -/
def extract_select (text : String) : List String :=
  if strContains text "TARIFFA" = true ∧
      strContains text "DESIGNAZIONE DEI LAVORI" = true then
    if 200 < (extract_primus_format_chunks text).length then
      extract_primus_format_chunks text
    else if 200 < (extract_fraction_format_chunks text).length then
      extract_fraction_format_chunks text
    else genericPart text
  else genericPart text

/-!
The page-cleaning loop of PrimusPDFExtractor.extract_work_item_chunks:
is_junk_line filtering plus line normalization, page by page.  A page that
raises inside the loop is caught, logged and skipped; an exception around
the whole body (opening included) is caught and yields the empty list.
Page text extraction outcomes and document opening are embedded as Except
values.
-/

/-- Junk pattern: pag dot, optional spaces, digits, end of line. -/
def pJunkPag (l : List Char) : Bool :=
  "pag.".data.isPrefixOf l &&
    (let r := (l.drop 4).dropWhile isSpace
     !r.isEmpty && r.all isDigit)

/-- Junk pattern: parziale s, two digits, dash, s, two digits, anywhere. -/
def pJunkParziale (l : List Char) : Bool :=
  l.tails.any fun t =>
    "parziale s".data.isPrefixOf t &&
      (match t.drop 10 with
       | a :: b :: '-' :: 's' :: c :: d :: _ =>
         isDigit a && isDigit b && isDigit c && isDigit d
       | _ => false)

/-- Junk pattern: via, optional spaces, at least three dots. -/
def pJunkVia (l : List Char) : Bool :=
  "via".data.isPrefixOf l &&
    (match (l.drop 3).dropWhile isSpace with
     | '.' :: '.' :: '.' :: _ => true
     | _ => false)

/-- PrimusPDFExtractor.is_junk_line: the line is stripped and lowercased,
an empty result is junk, and otherwise the fixed catalogue of re.search
patterns of the method body is tried (the separate junk_patterns list
built in the constructor is never used on this path). -/
def is_junk_line (line : String) : Bool :=
  let tl : List Char := (stripL line.data).map lowerChar
  if tl = [] then true
  else
    pJunkPag tl || tl = "r i p o r t o".data ||
      "committente:".data.isPrefixOf tl ||
      "a r i p o r t a r e".data.isPrefixOf tl ||
      containsSub tl "d i m e n s i o n i".data ||
      containsSub tl "i m p o r t i".data ||
      pJunkParziale tl ||
      containsSub tl "rieplogo super categorie".data ||
      pJunkVia tl ||
      "num.ord.".data.isPrefixOf tl ||
      tl = "quantità".data ||
      "par.ug.".data.isPrefixOf tl ||
      "lung.".data.isPrefixOf tl ||
      "larg.".data.isPrefixOf tl ||
      "h/peso".data.isPrefixOf tl ||
      "unitario".data.isPrefixOf tl ||
      tl = "totale".data

/-- The per-page cleaning: drop junk lines, normalize the rest, drop lines
that normalize to nothing, join with newlines and append one trailing
newline, as the loop body does for a page with text. -/
def cleanPage (t : String) : String :=
  let cleaned := (splitNl t).filterMap fun line =>
    if is_junk_line line then none
    else
      let n := normalize_text_line line
      if n = "" then none else some n
  String.intercalate "\n" cleaned ++ "\n"

/-- Outcome of page.extract_text for one page: error models the call
raising (caught by the per-page handler), ok none models a page without
text, ok some models extracted text (the empty string is falsy in Python
and also contributes nothing). -/
def pageContrib (o : Except String (Option String)) : String :=
  match o with
  | .error _ => ""
  | .ok none => ""
  | .ok (some t) => if t = "" then "" else cleanPage t

/-- The accumulated full_document_text of the page loop. -/
def buildFullText : List (Except String (Option String)) → String
  | [] => ""
  | p :: rest => pageContrib p ++ buildFullText rest

/-- PrimusPDFExtractor.extract_work_item_chunks: the document is opened and
its pages cleaned into full_document_text, then the strategy selection
runs; any exception around the whole body returns the empty list. -/
def extract_work_item_chunks
    (pdf : Except String (List (Except String (Option String)))) :
    List String :=
  match pdf with
  | .error _ => []
  | .ok pages => extract_select (buildFullText pages)

/-- C10: extract_work_item_chunks catches every document-level exception
(opening or processing the PDF) and returns the empty chunk list instead
of propagating it. -/
theorem extract_work_item_chunks_total_on_error (msg : String) :
    extract_work_item_chunks (Except.error msg) = [] := rfl

/-- C1: whenever the document text holds both the TARIFFA and
DESIGNAZIONE DEI LAVORI markers and the Tabular strategy produces more
than 200 chunks, the engine returns exactly the Tabular chunk list: no
lower-precedence strategy is consulted. -/
theorem extract_select_tabular_wins (text : String)
    (hmark : strContains text "TARIFFA" = true ∧
      strContains text "DESIGNAZIONE DEI LAVORI" = true)
    (hcount : 200 < (extract_primus_format_chunks text).length) :
    extract_select text = extract_primus_format_chunks text := by
  rw [extract_select, if_pos hmark, if_pos hcount]

/-- A document with both markers and 201 Tabular items, each line its own
chunk. -/
def tabularWinsText : String :=
  "TARIFFA\nDESIGNAZIONE DEI LAVORI\n" ++
    String.intercalate "\n"
      (List.replicate 201 "1 Abcdefghijklmnopqrstuvwxyzabcd")

set_option maxRecDepth 10000 in
/-- C1 witness: on tabularWinsText the markers are present, the Tabular
strategy yields more than 200 chunks, and the engine returns its list. -/
theorem extract_select_tabular_wins_witness :
    extract_select tabularWinsText =
      extract_primus_format_chunks tabularWinsText :=
  extract_select_tabular_wins tabularWinsText ⟨by decide, by decide⟩
    (by decide)

/-- C9 counterexample input: no specialized strategy fires, the cascade
finds no valid chunk on any pattern (every SOMMANO-holding segment is at
most 50 characters), yet the SOMMANO-grouping fallback seals one group,
which the engine returns instead of the cascade's empty best result. -/
def strictThresholdText : String := "1 A\n1/1 b\n1 2.x\nd\ne\nSOMMANO"

/-- C9 counterexample: when both specialized strategies are at or below
the 200-chunk floor the engine does not always return the cascade's best
result: with an empty cascade best it returns the fallback grouping. -/
theorem extract_select_strict_threshold_counterexample :
    ¬ (∀ text : String,
        (extract_primus_format_chunks text).length ≤ 200 →
        (extract_fraction_format_chunks text).length ≤ 200 →
        extract_select text = cascadeBest text) := by
  intro h
  have := h strictThresholdText (by decide) (by decide)
  exact absurd this (by decide)

/-- C9 amended: whenever both specialized strategies produce at most 200
chunks, their lists are discarded entirely and the engine returns the
generic cascade's best result when that is non-empty (even when it has
fewer chunks than a discarded specialized list), and the SOMMANO-grouping
fallback result when the cascade found nothing. -/
theorem extract_select_strict_threshold (text : String)
    (hp : (extract_primus_format_chunks text).length ≤ 200)
    (hf : (extract_fraction_format_chunks text).length ≤ 200) :
    extract_select text =
      (if cascadeBest text = [] then sommano_fallback_chunks text
       else cascadeBest text) := by
  rw [extract_select]
  by_cases hm : strContains text "TARIFFA" = true ∧
      strContains text "DESIGNAZIONE DEI LAVORI" = true
  · rw [if_pos hm, if_neg (Nat.not_lt.mpr hp), if_neg (Nat.not_lt.mpr hf),
      genericPart]
  · rw [if_neg hm, genericPart]

/-- C9 witness: on strictThresholdText both specialized counts are at или
below the floor and the engine returns the fallback group. -/
theorem extract_select_strict_threshold_witness :
    extract_select strictThresholdText =
      (if cascadeBest strictThresholdText = [] then
        sommano_fallback_chunks strictThresholdText
       else cascadeBest strictThresholdText) :=
  extract_select_strict_threshold strictThresholdText (by decide) (by decide)

/-!
The Row Geometry Splitter, crop_rows_by_keyword of
extract_primus_specialized_split.py.

Coordinates are embedded as elements of an arbitrary linear ordered
commutative ring (the code's float coordinates undergo only addition,
subtraction, min/max and comparisons on this path; the dpi zoom matrix
only affects rasterization, which is outside the model).  Rectangles
follow PyMuPDF: intersection takes the componentwise max of the top-left
and min of the bottom-right corners, and width and height of a degenerate
rectangle clamp at zero.  Page raster data is not modeled beyond the
rectangles; search_for results arrive as the hit list of a page.
-/

section Geometry

variable {α : Type} [LinearOrderedCommRing α]

/-- A fitz rectangle. -/
structure GRect (α : Type) where
  x0 : α
  y0 : α
  x1 : α
  y1 : α
deriving DecidableEq

/-- Rectangle width, clamped at zero for degenerate rectangles. -/
def GRect.width (r : GRect α) : α := max 0 (r.x1 - r.x0)

/-- Rectangle height, clamped at zero for degenerate rectangles. -/
def GRect.height (r : GRect α) : α := max 0 (r.y1 - r.y0)

/-- Rectangle intersection, the fitz and-operator. -/
def interRect (a b : GRect α) : GRect α :=
  ⟨max a.x0 b.x0, max a.y0 b.y0, min a.x1 b.x1, min a.y1 b.y1⟩

/-- One rendered page as the splitter sees it: its rectangle, the keyword
hits of search_for, and the top coordinates of its text blocks. -/
structure PageData (α : Type) where
  rect : GRect α
  hits : List (GRect α)
  blockTops : List α
deriving DecidableEq

/-- The configurable offsets of crop_rows_by_keyword. -/
structure GeoParams (α : Type) where
  leftMargin : α
  rightMargin : α
  extendTop : α
  extendBottom : α
  includeKeywordPadding : α
deriving DecidableEq

/-- Strict lexicographic order on hit rectangles by top then left edge,
the sort key of the hit ordering. -/
def hitLt (a b : GRect α) : Bool :=
  decide (a.y0 < b.y0 ∨ (a.y0 = b.y0 ∧ a.x0 < b.x0))

/-- Stable insertion into a sorted list: a new element passes an old one
only when strictly smaller, so equal keys keep their original order. -/
def sinsert (lt : β → β → Bool) (x : β) : List β → List β
  | [] => [x]
  | y :: ys => if lt x y then x :: y :: ys else y :: sinsert lt x ys

/-- Stable sort (Python sorted): insert the elements left to right. -/
def stableSortBy (lt : β → β → Bool) (l : List β) : List β :=
  l.foldl (fun acc x => sinsert lt x acc) []

/-- The page's hits sorted by vertical then horizontal position. -/
def sortedHits (pg : PageData α) : List (GRect α) :=
  stableSortBy hitLt pg.hits

/-- The content top of a page: its top edge plus ten points, or the least
block top adjusted by the top extension when blocks exist. -/
def contentTop (pg : PageData α) (P : GeoParams α) : α :=
  match pg.blockTops with
  | [] => pg.rect.y0 + 10
  | b :: bs => bs.foldl min b + P.extendTop

/-- The per-hit crop rectangles of one page before intersection and
filtering: each spans from the running cursor down to the hit's bottom
plus the bottom extension and keyword padding, and the cursor then moves
to the hit's bottom plus two points. -/
def rowRectsGo (pg : PageData α) (P : GeoParams α) (prev : α) :
    List (GRect α) → List (GRect α)
  | [] => []
  | h :: hs =>
    ⟨pg.rect.x0 + P.leftMargin, prev, pg.rect.x1 - P.rightMargin,
      h.y1 + P.extendBottom + P.includeKeywordPadding⟩ ::
      rowRectsGo pg P (h.y1 + 2) hs

/-- All row rectangles of one page, starting the cursor at the content
top. -/
def rowRects (pg : PageData α) (P : GeoParams α) : List (GRect α) :=
  rowRectsGo pg P (contentTop pg P) (sortedHits pg)

/-- One saved crop: page number (1-based), row index on the page
(1-based, counting saved crops only), and the crop rectangle. -/
structure RowCrop (α : Type) where
  page : Nat
  row : Nat
  rect : GRect α
deriving DecidableEq

/-- The saved crops of one page: row rectangles intersected with the page,
kept when both dimensions reach the 6-point floor, and numbered in saving
order from one. -/
def cropPage (pno : Nat) (P : GeoParams α) (pg : PageData α) :
    List (RowCrop α) :=
  ((((rowRects pg P).map fun r => interRect r pg.rect).filter fun r =>
      decide (6 ≤ r.height) && decide (6 ≤ r.width)).enum).map
    fun p => ⟨pno + 1, p.1 + 1, p.2⟩

/-- The page loop of crop_rows_by_keyword over the document. -/
def cropPagesFrom (P : GeoParams α) : Nat → List (PageData α) →
    List (RowCrop α)
  | _, [] => []
  | pno, pg :: rest => cropPage pno P pg ++ cropPagesFrom P (pno + 1) rest

/-- crop_rows_by_keyword: all saved crops of the document in saving
order. -/
def crop_rows_by_keyword (P : GeoParams α) (doc : List (PageData α)) :
    List (RowCrop α) :=
  cropPagesFrom P 0 doc

/-- The document-wide ordinal numbering of the saved crops (the saving
order, which also orders the saved_files list of the source). -/
def cropsWithOrdinals (P : GeoParams α) (doc : List (PageData α)) :
    List (Nat × RowCrop α) :=
  (crop_rows_by_keyword P doc).enum.map fun p => (p.1 + 1, p.2)

/-- Strict document order on crops: earlier page, or same page and
earlier row. -/
def pageRowLt (c d : RowCrop α) : Prop :=
  c.page < d.page ∨ (c.page = d.page ∧ c.row < d.row)

/-- The faithful embedding of the loop of crop_rows_by_keyword over pages
that can raise: there is no per-page exception handler, so the first
failing page aborts the whole document. -/
def crop_rows_run (P : GeoParams α) :
    Nat → List (Except String (PageData α)) →
      Except String (List (RowCrop α))
  | _, [] => .ok []
  | _, .error e :: _ => .error e
  | pno, .ok pg :: rest =>
    match crop_rows_run P (pno + 1) rest with
    | .error e => .error e
    | .ok cs => .ok (cropPage pno P pg ++ cs)

theorem enumFromFstGe (n : Nat) (l : List β) :
    ∀ x ∈ List.enumFrom n l, n ≤ x.1 := by
  induction l generalizing n with
  | nil => simp
  | cons a t ih =>
    intro x hx
    rw [List.enumFrom] at hx
    rcases List.mem_cons.mp hx with rfl | hx
    · simp
    · exact Nat.le_of_succ_le (ih (n + 1) x hx)

theorem enumFromFstPairwise (n : Nat) (l : List β) :
    List.Pairwise (fun a b => a.1 < b.1) (List.enumFrom n l) := by
  induction l generalizing n with
  | nil => simp
  | cons a t ih =>
    rw [List.enumFrom, List.pairwise_cons]
    refine ⟨?_, ih (n + 1)⟩
    intro y hy
    have := enumFromFstGe (n + 1) t y hy
    simpa using Nat.lt_of_succ_le this

theorem cropPageRowsPairwise (pno : Nat) (P : GeoParams α) (pg : PageData α) :
    List.Pairwise pageRowLt (cropPage pno P pg) := by
  rw [cropPage, List.pairwise_map]
  refine (enumFromFstPairwise 0 _).imp ?_
  intro a b hab
  exact Or.inr ⟨rfl, Nat.succ_lt_succ hab⟩

theorem cropPagePageEq (pno : Nat) (P : GeoParams α) (pg : PageData α) :
    ∀ c ∈ cropPage pno P pg, c.page = pno + 1 := by
  intro c hc
  rw [cropPage] at hc
  rcases List.mem_map.mp hc with ⟨p, _, rfl⟩
  rfl

theorem cropPagesFromPageGe (P : GeoParams α) :
    ∀ (doc : List (PageData α)) (pno : Nat),
      ∀ c ∈ cropPagesFrom P pno doc, pno + 1 ≤ c.page := by
  intro doc
  induction doc with
  | nil => intro pno c hc; rw [cropPagesFrom] at hc; simp at hc
  | cons pg rest ih =>
    intro pno c hc
    rw [cropPagesFrom] at hc
    rcases List.mem_append.mp hc with hc | hc
    · rw [cropPagePageEq pno P pg c hc]
    · have := ih (pno + 1) c hc
      omega

theorem cropPagesFromPairwise (P : GeoParams α) :
    ∀ (doc : List (PageData α)) (pno : Nat),
      List.Pairwise pageRowLt (cropPagesFrom P pno doc) := by
  intro doc
  induction doc with
  | nil => intro pno; rw [cropPagesFrom]; exact List.Pairwise.nil
  | cons pg rest ih =>
    intro pno
    rw [cropPagesFrom, List.pairwise_append]
    refine ⟨cropPageRowsPairwise pno P pg, ih (pno + 1), ?_⟩
    intro a ha b hb
    have h1 := cropPagePageEq pno P pg a ha
    have h2 := cropPagesFromPageGe P rest (pno + 1) b hb
    exact Or.inl (by omega)

/-- C3: the crops of a whole document carry ordinal numbers forming the
contiguous sequence 1..N (the ordinal of a crop is its position in the
document-wide saving order), and the sequence is strictly increasing in
(page, rowIndexOnPage): page ascending, then row ascending within each
page. -/
theorem crop_rows_global_ordinals (P : GeoParams α)
    (doc : List (PageData α)) :
    (cropsWithOrdinals P doc).map Prod.fst =
      List.range' 1 (crop_rows_by_keyword P doc).length ∧
    List.Pairwise (fun a b => a.1 < b.1 ∧ pageRowLt a.2 b.2)
      (cropsWithOrdinals P doc) := by
  constructor
  · rw [cropsWithOrdinals, List.map_map]
    have h1 : (Prod.fst ∘ fun p : Nat × RowCrop α => (p.1 + 1, p.2)) =
        ((fun i => 1 + i) ∘ Prod.fst) := by
      funext p
      simp [Nat.add_comm]
    rw [h1, ← List.map_map, List.enum_map_fst, List.range'_eq_map_range]
  · rw [cropsWithOrdinals, List.pairwise_map]
    have hord := enumFromFstPairwise 0 (crop_rows_by_keyword P doc)
    have hpr : List.Pairwise
        (fun p q : Nat × RowCrop α => pageRowLt p.2 q.2)
        ((crop_rows_by_keyword P doc).enum) := by
      have hsnd : ((crop_rows_by_keyword P doc).enum.map
          Prod.snd).Pairwise pageRowLt := by
        rw [List.enum_map_snd]
        exact cropPagesFromPairwise P doc 0
      exact List.pairwise_map.mp hsnd
    refine (hord.and hpr).imp ?_
    intro a b hab
    exact ⟨Nat.succ_lt_succ hab.1, hab.2⟩

theorem rowRectsGoTops (pg : PageData α) (P : GeoParams α) :
    ∀ (hs : List (GRect α)) (prev : α),
      (rowRectsGo pg P prev hs).map (fun r => r.y0) =
        (prev :: hs.map fun h => h.y1 + 2).take hs.length := by
  intro hs
  induction hs with
  | nil => intro prev; rfl
  | cons h hs ih =>
    intro prev
    rw [rowRectsGo]
    simp only [List.map_cons, List.length_cons, List.take_succ_cons]
    rw [ih]

theorem contentTopExt (pg : PageData α) (P Q : GeoParams α)
    (h : P.extendTop = Q.extendTop) : contentTop pg P = contentTop pg Q := by
  rw [contentTop, contentTop]
  cases pg.blockTops with
  | nil => rfl
  | cons b bs => rw [h]

/-- C4: the top edge of the crop rectangle built for each keyword hit is
the content top for the first hit and the previous hit's bottom edge plus
two points for every later one — never the previous crop's bottom edge —
so the row tops are unchanged under any change of the bottom extension and
keyword-inclusion padding (and of the margins). -/
theorem crop_cursor_from_keyword_bottom (pg : PageData α)
    (P Q : GeoParams α) (htop : P.extendTop = Q.extendTop) :
    (rowRects pg P).map (fun r => r.y0) =
      (contentTop pg P :: (sortedHits pg).map fun h => h.y1 + 2).take
        (sortedHits pg).length ∧
    (rowRects pg P).map (fun r => r.y0) =
      (rowRects pg Q).map fun r => r.y0 := by
  refine ⟨rowRectsGoTops pg P _ _, ?_⟩
  rw [rowRects, rowRects, rowRectsGoTops, rowRectsGoTops,
    contentTopExt pg P Q htop]

/-- A concrete page with two keyword hits. -/
def geoPage : PageData Int :=
  ⟨⟨0, 0, 100, 200⟩, [⟨10, 80, 30, 90⟩, ⟨10, 20, 30, 28⟩], [5]⟩

/-- The default offsets of the splitter. -/
def geoP : GeoParams Int := ⟨6, 6, -4, 6, 8⟩

/-- The default offsets with much larger bottom extension and keyword
padding. -/
def geoQ : GeoParams Int := ⟨6, 6, -4, 100, 50⟩

/-- C4 witness: on geoPage the row tops are the content top followed by
the first hit's bottom plus two, for either padding choice. -/
theorem crop_cursor_from_keyword_bottom_witness :
    (rowRects geoPage geoP).map (fun r => r.y0) =
      (contentTop geoPage geoP ::
        (sortedHits geoPage).map fun h => h.y1 + 2).take
        (sortedHits geoPage).length ∧
    (rowRects geoPage geoP).map (fun r => r.y0) =
      (rowRects geoPage geoQ).map fun r => r.y0 :=
  crop_cursor_from_keyword_bottom geoPage geoP geoQ rfl

/-- C8: on a three-page document whose middle page fails, the text-chunk
extractor's page loop catches the failure and builds the same document
text as if only the two good pages existed, while crop_rows_by_keyword has
no per-page handler and the whole document run aborts with the exception,
producing no crops at all for the other pages. -/
theorem page_failure_divergence (t1 t3 : Option String) (e1 : String)
    (P : GeoParams Int) (p1 p3 : PageData Int) (e2 : String) :
    buildFullText [.ok t1, .error e1, .ok t3] =
      buildFullText [.ok t1, .ok t3] ∧
    crop_rows_run P 0 [.ok p1, .error e2, .ok p3] = .error e2 :=
  ⟨rfl, rfl⟩

end Geometry

end PrimusSpec
